import Mathlib

/-!
# Verification of the prerequisite graph validator

A shallow embedding of `learning-design/scripts/validate_graph.py` and proofs
about its four analyses: prerequisite reference validation, cycle detection
(`detect_cycles`, a depth-first search with a shared `visited` set and a
per-traversal recursion stack), orphan detection (`detect_orphans`, a
fixed-point reachability sweep from the foundation modules), and progression
rule checking (`validate_progression_rules`).

Modelling notes:
* The Python registry is a `dict[int, metadata]` built in insertion order; we
  model it as an association list `List (Nat × Module)` in the same order.
* Python iterates `set(prerequisites)` in an unspecified order; the model
  iterates the prerequisite list in its given order.  Duplicates in those
  lists do not change any of the analysers' decisions, only the order in
  which neighbours are tried.
* The recursive `has_cycle` is modelled with a fuel parameter that bounds the
  recursion depth.  `cycle_fuel` is always sufficient (the completeness
  lemmas below only ever run the search with sufficient fuel), so the model
  computes exactly what the unbounded Python recursion computes.
-/

namespace ValidateGraph

/-- One module metadata record, as consumed by `validate_graph.py`:
`metadata.get('title')`, `metadata.get('bloom_level')`,
`metadata.get('scaffolding_level')`, `metadata.get('prerequisites', [])`.
Absent keys are `none` / the empty list. -/
structure Module where
  title : Option String
  bloom_level : Option String
  scaffolding_level : Option String
  prerequisites : List Nat
deriving DecidableEq

/-- The module registry `dict[int, metadata]`, in insertion order. -/
abbrev Registry := List (Nat × Module)

/-- The key set of the registry (`modules.keys()`), in insertion order. -/
def keys (reg : Registry) : List Nat := reg.map Prod.fst

/-- Dictionary lookup `modules[mid]` / `mid in modules`. -/
def lookup (reg : Registry) (mid : Nat) : Option Module :=
  (reg.find? fun p => p.1 == mid).map Prod.snd

/-- The adjacency function `graph.get(node, [])` used by `detect_cycles`:
a module's prerequisite list, or `[]` for an id absent from the registry. -/
def graphOf (reg : Registry) (node : Nat) : List Nat :=
  match lookup reg node with
  | some m => m.prerequisites
  | none => []

/-- The `for neighbor in graph.get(node, [])` loop body of `has_cycle`:
`visit` is the recursive `has_cycle` call available at the current depth.
Returns the `(found_cycle, visited)` pair; the recursion stack is
`node :: path` and is discarded on a `True` return, exactly as in the
source, where the outer loop passes a fresh `set()` each time. -/
def has_cycle_loop (visit : Nat → List Nat → List Nat → Bool × List Nat) :
    List Nat → Nat → List Nat → List Nat → Bool × List Nat
  | [], _, _, visited => (false, visited)
  | n :: rest, node, path, visited =>
    if n ∈ visited then
      if n ∈ node :: path then (true, visited)
      else has_cycle_loop visit rest node path visited
    else
      match visit n (node :: path) visited with
      | (true, v) => (true, v)
      | (false, v) => has_cycle_loop visit rest node path v

/-- `has_cycle(node, visited, rec_stack)` from `detect_cycles`: the node is
added to `visited` and to the recursion stack, then each neighbour is tried.
The first argument is the adjacency function, the second the fuel bounding
recursion depth (see the module docstring). -/
def has_cycle (g : Nat → List Nat) : Nat → Nat → List Nat → List Nat → Bool × List Nat
  | 0, _, _, visited => (false, visited)
  | f + 1, node, path, visited =>
    has_cycle_loop (has_cycle g f) (g node) node path (node :: visited)

/-- The outer loop of `detect_cycles`: start a fresh traversal (with an empty
recursion stack but the shared `visited` set) from every not-yet-visited
registry key, and report the start node whenever the traversal finds a
back edge. -/
def detect_cycles_loop (g : Nat → List Nat) (f : Nat) : List Nat → List Nat → List Nat
  | [], _ => []
  | k :: ks, visited =>
    if k ∈ visited then detect_cycles_loop g f ks visited
    else
      match has_cycle g f k [] visited with
      | (true, v) => k :: detect_cycles_loop g f ks v
      | (false, v) => detect_cycles_loop g f ks v

/-- Fuel for the cycle search: one more than the number of registry entries.
Each level of nesting visits a previously unvisited node, and only the last
frame on a chain can be a dangling id, so this depth is never exhausted. -/
def cycle_fuel (reg : Registry) : Nat := (keys reg).length + 1

/-- `detect_cycles(modules)`: the list of module ids reported in
`CircularDependency` findings, in the order the outer loop produced them.
(The source formats each as an error string carrying the module id.) -/
def detect_cycles (reg : Registry) : List Nat :=
  detect_cycles_loop (graphOf reg) (cycle_fuel reg) (keys reg) []

/-- The foundation set of `detect_orphans`: modules whose prerequisite set is
empty. -/
def foundation (reg : Registry) : List Nat :=
  (reg.filter fun p => p.2.prerequisites == []).map Prod.fst

/-- One full pass of the fixed-point sweep in `detect_orphans`: scan the
registry in order and add every module that is not yet reachable but whose
prerequisites are all reachable (later items in the same pass see earlier
additions, as in the source's in-place mutation). -/
def expand_once (reg : Registry) (reachable : List Nat) : List Nat :=
  reg.foldl
    (fun acc p =>
      if p.1 ∉ acc ∧ ∀ q ∈ p.2.prerequisites, q ∈ acc then acc ++ [p.1] else acc)
    reachable

/-- The `while changed` loop of `detect_orphans`: repeat full passes until a
pass adds nothing.  The fuel `reg.length + 1` always suffices (each earlier
pass adds at least one registry key), see `expand_iter_fixpoint`. -/
def expand_iter (reg : Registry) : Nat → List Nat → List Nat
  | 0, r => r
  | f + 1, r =>
    let r' := expand_once reg r
    if r' = r then r else expand_iter reg f r'

/-- The reachable set computed by `detect_orphans` when the foundation set is
non-empty. -/
def reachable_set (reg : Registry) : List Nat :=
  expand_iter reg (reg.length + 1) (foundation reg)

/-- Insertion into a sorted list (used to model Python's `sorted`). -/
def insert_sorted (x : Nat) : List Nat → List Nat
  | [] => [x]
  | y :: ys => if x ≤ y then x :: y :: ys else y :: insert_sorted x ys

/-- `sorted(...)` applied to the orphan id set. -/
def sort_ids (l : List Nat) : List Nat := l.foldr insert_sorted []

/-- The outcome of `detect_orphans`: either the single
`NoFoundationModules` error, or the (possibly empty) sorted list of module
ids named in the `OrphanedModule` finding. -/
structure OrphanReport where
  no_foundation : Bool
  orphaned : List Nat
deriving DecidableEq

/-- `detect_orphans(modules)`: if no module has an empty prerequisite list,
report `NoFoundationModules` and stop; otherwise run the fixed-point sweep
from the foundation set and report `sorted(set(graph.keys()) - reachable)`. -/
def detect_orphans (reg : Registry) : OrphanReport :=
  if foundation reg = [] then ⟨true, []⟩
  else ⟨false, sort_ids ((keys reg).filter fun k => decide (¬ k ∈ reachable_set reg))⟩

/-- `BLOOM_ORDER` from the source. -/
def BLOOM_ORDER : List String :=
  ["Remember", "Understand", "Apply", "Analyze", "Evaluate", "Create"]

/-- `SCAFFOLDING_VALUE` from the source, as an association list. -/
def SCAFFOLDING_VALUE : List (String × Nat) := [("HIGH", 3), ("MEDIUM", 2), ("LOW", 1)]

/-- `BLOOM_ORDER.index(level)` guarded by `level in BLOOM_ORDER`:
`none` when the level is missing or not one of the six values. -/
def bloom_index (b : Option String) : Option Nat :=
  match b with
  | some s => if s ∈ BLOOM_ORDER then some (BLOOM_ORDER.indexOf s) else none
  | none => none

/-- `SCAFFOLDING_VALUE[level]` guarded by `level in SCAFFOLDING_VALUE`:
`none` when the level is missing or not one of the three keys. -/
def scaffolding_value (s : Option String) : Option Nat :=
  match s with
  | some t => (SCAFFOLDING_VALUE.find? fun p => p.1 == t).map Prod.snd
  | none => none

/-- Concatenation of per-entry finding lists over the registry, in registry
order (the `for module_id, metadata in modules.items()` loops). -/
def collect {α : Type} (f : Nat × Module → List α) : Registry → List α
  | [] => []
  | p :: t => f p ++ collect f t

/-- `validate_prerequisite_references(modules)`: a `(module_id, prereq_id)`
pair for every declared prerequisite id that is not a registry key. -/
def validate_prerequisite_references (reg : Registry) : List (Nat × Nat) :=
  collect
    (fun p => (p.2.prerequisites.filter fun q => decide (¬ q ∈ keys reg)).map fun q => (p.1, q))
    reg

/-- `validate_progression_rules(modules)`: for every edge from a module to a
prerequisite present in the registry whose Bloom and scaffolding levels are
all well-typed, report `(module_id, prereq_id)` exactly when the Bloom index
strictly increases while the scaffolding value strictly decreases. -/
def validate_progression_rules (reg : Registry) : List (Nat × Nat) :=
  collect
    (fun p =>
      p.2.prerequisites.filterMap fun q =>
        match lookup reg q with
        | none => none
        | some pm =>
          match bloom_index p.2.bloom_level, bloom_index pm.bloom_level,
              scaffolding_value p.2.scaffolding_level,
              scaffolding_value pm.scaffolding_level with
          | some cb, some pb, some cs, some ps =>
            if pb < cb ∧ cs < ps then some (p.1, q) else none
          | _, _, _, _ => none)
    reg

/-- One typed finding of the validation report (the identifying data carried
by each formatted error string). -/
inductive Finding where
  | dangling (mid missing : Nat)
  | circular (mid : Nat)
  | no_foundation
  | orphaned (mids : List Nat)
  | progression (mid prereq : Nat)
deriving DecidableEq

/-- The error list returned by `detect_orphans` as findings: one
`NoFoundationModules` entry, or one `OrphanedModule` entry naming all
orphaned ids, or nothing. -/
def orphan_findings (reg : Registry) : List Finding :=
  let r := detect_orphans reg
  if r.no_foundation then [Finding.no_foundation]
  else if r.orphaned = [] then [] else [Finding.orphaned r.orphaned]

/-- `all_errors` accumulated by `main`: the four checks' findings
concatenated in the order the source runs them. -/
def all_findings (reg : Registry) : List Finding :=
  ((validate_prerequisite_references reg).map fun p => Finding.dangling p.1 p.2)
    ++ ((detect_cycles reg).map Finding.circular)
    ++ orphan_findings reg
    ++ ((validate_progression_rules reg).map fun p => Finding.progression p.1 p.2)

/-- The exit code of `main` on a successfully loaded registry:
`1` when no modules were found, otherwise `0` iff `all_errors` is empty. -/
def main_result (reg : Registry) : Nat :=
  if reg = [] then 1 else if all_findings reg = [] then 0 else 1

/-- The registry-construction loop of `discover_modules` on an ordered
sequence of raw records: the `raise ValueError` for a duplicate id at line 85
is caught by the blanket `except Exception` at line 89 of the same `try`
block, so a record whose id is already present is skipped (with a warning)
and the loop continues. -/
def discover_modules (records : List (Nat × Module)) : Registry :=
  records.foldl (fun acc r => if r.1 ∈ keys acc then acc else acc ++ [r]) []

/-- The registry with every dangling prerequisite id (an id that is not a
registry key) removed from each module's prerequisite list. -/
def prune (reg : Registry) : Registry :=
  reg.map fun p =>
    (p.1, { p.2 with prerequisites := p.2.prerequisites.filter fun q => decide (q ∈ keys reg) })

/-- The directed prerequisite edge relation: `Edge reg a b` holds when `b` is
listed among `a`'s prerequisites (the edges `detect_cycles` traverses). -/
def Edge (reg : Registry) (a b : Nat) : Prop := b ∈ graphOf reg a

instance (reg : Registry) (a b : Nat) : Decidable (Edge reg a b) :=
  inferInstanceAs (Decidable (b ∈ graphOf reg a))

/-- The prerequisite graph has no directed cycle. -/
def Acyclic (reg : Registry) : Prop := ∀ a, ¬ Relation.TransGen (Edge reg) a a

/-- `a` lies on a path leading to some directed cycle. -/
def ReachesCycle (reg : Registry) (a : Nat) : Prop :=
  ∃ c, Relation.ReflTransGen (Edge reg) a c ∧ Relation.TransGen (Edge reg) c c

/-- The prerequisite-satisfaction closure: a module is completable when it is
in the registry and all of its prerequisites are completable (foundation
modules vacuously so).  This is the least set containing the foundation
modules and closed under "all prerequisites satisfied". -/
inductive Completable (reg : Registry) : Nat → Prop
  | step (mid : Nat) (m : Module) (hm : (mid, m) ∈ reg)
      (hpre : ∀ q ∈ m.prerequisites, Completable reg q) : Completable reg mid

/-- The spec's notion in §8: reachable from some foundation module by zero or
more single prerequisite hops (each hop follows one prerequisite edge,
ignoring a module's other prerequisites). -/
def SpecHopReachable (reg : Registry) (mid : Nat) : Prop :=
  ∃ f, f ∈ foundation reg ∧ Relation.ReflTransGen (Edge reg) mid f

/-- `ReachesCycle` expressed over a bare adjacency function. -/
def RC (g : Nat → List Nat) (a : Nat) : Prop :=
  ∃ c, Relation.ReflTransGen (fun x y => y ∈ g x) a c ∧
    Relation.TransGen (fun x y => y ∈ g x) c c

/-- Number of keys of `K` not yet in the visited list `v`; the measure that
bounds both the DFS recursion depth and the number of sweep passes. -/
def unvisited (K v : List Nat) : Nat := (K.toFinset \ v.toFinset).card

/-- Induction statement for `has_cycle` at fuel `f`: started on an unvisited
node with the recursion stack inside the visited set and sufficient fuel, the
search only grows the visited set, visits its start node, and — when it
reports no cycle — leaves every newly visited node (bar the untouched stack)
unable to reach a cycle. -/
def VisitInv (g : Nat → List Nat) (K : List Nat) (f : Nat) : Prop :=
  ∀ node path v, node ∉ v → (∀ x ∈ path, x ∈ v) → unvisited K v + 1 ≤ f →
    (∀ x ∈ v, x ∉ node :: path → ¬ RC g x) →
    (∀ x ∈ v, x ∈ (has_cycle g f node path v).2) ∧
    node ∈ (has_cycle g f node path v).2 ∧
    ((has_cycle g f node path v).1 = false →
      ∀ x ∈ (has_cycle g f node path v).2, x ∉ path → ¬ RC g x)

/-- Companion statement for the neighbour loop of `has_cycle` running with
recursive calls at fuel `f`. -/
def LoopInv (g : Nat → List Nat) (K : List Nat) (f : Nat) : Prop :=
  ∀ ns node path v, (∀ x ∈ node :: path, x ∈ v) → unvisited K v + 1 ≤ f →
    (∀ x ∈ v, x ∉ node :: path → ¬ RC g x) →
    (∀ x ∈ v, x ∈ (has_cycle_loop (has_cycle g f) ns node path v).2) ∧
    ((has_cycle_loop (has_cycle g f) ns node path v).1 = false →
      (∀ x ∈ (has_cycle_loop (has_cycle g f) ns node path v).2,
        x ∉ node :: path → ¬ RC g x) ∧
      ∀ n ∈ ns, ¬ RC g n)

/-- A module with no fields set except its prerequisite list. -/
def mkMod (pre : List Nat) : Module :=
  { title := none, bloom_level := none, scaffolding_level := none, prerequisites := pre }

/-- Registry `0 → 1 → 2 → 1`: module 0 reaches the cycle `1 ↔ 2` but lies on
no cycle itself. -/
def regChain : Registry := [(0, mkMod [1]), (1, mkMod [2]), (2, mkMod [1])]

/-- Registry `1 ↔ 2`: a two-cycle and an empty foundation set. -/
def regPair : Registry := [(1, mkMod [2]), (2, mkMod [1])]

/-- Registry where module 1 depends on foundation module 0 and on the
self-looping module 2. -/
def regHop : Registry := [(0, mkMod []), (1, mkMod [0, 2]), (2, mkMod [2])]

/-- Registry where module 2's only prerequisite, 99, is dangling. -/
def regDang : Registry := [(0, mkMod []), (2, mkMod [99])]

/-- A module with the given Bloom and scaffolding levels. -/
def mkModLvl (b s : String) (pre : List Nat) : Module :=
  { title := none, bloom_level := some b, scaffolding_level := some s, prerequisites := pre }

/-- Spec scenario 5: complexity rises Remember → Create while support drops
HIGH → LOW across the edge `1 → 0`. -/
def regProg : Registry :=
  [(0, mkModLvl "Remember" "HIGH" []), (1, mkModLvl "Create" "LOW" [0])]

/-- A single well-formed foundation module: a fully valid registry. -/
def regOK : Registry := [(0, mkModLvl "Remember" "HIGH" [])]

/-- Two raw records sharing id 0 but differing in title. -/
def modA : Module :=
  { title := some "A", bloom_level := none, scaffolding_level := none, prerequisites := [] }

/-- Second record with the duplicate id. -/
def modB : Module :=
  { title := some "B", bloom_level := none, scaffolding_level := none, prerequisites := [] }

lemma lookup_mem {reg : Registry} {k : Nat} {m : Module} (h : lookup reg k = some m) :
    (k, m) ∈ reg := by
  unfold lookup at h
  cases hf : reg.find? fun p => p.1 == k with
  | none => rw [hf] at h; simp at h
  | some p =>
    rw [hf] at h
    simp only [Option.map_some', Option.some.injEq] at h
    have hp := List.mem_of_find?_eq_some hf
    have hpk := List.find?_some hf
    simp only [beq_iff_eq] at hpk
    have : (k, m) = p := by
      cases p with
      | mk p1 p2 => simp only at hpk h; simp [hpk, h]
    rw [this]; exact hp

lemma mem_keys_of_lookup {reg : Registry} {k : Nat} {m : Module}
    (h : lookup reg k = some m) : k ∈ keys reg := by
  have := lookup_mem h
  exact List.mem_map.mpr ⟨(k, m), this, rfl⟩

lemma lookup_eq_none {reg : Registry} {k : Nat} (h : k ∉ keys reg) : lookup reg k = none := by
  unfold lookup
  rw [List.find?_eq_none.mpr]
  · rfl
  · intro p hp hpk
    simp only [beq_iff_eq] at hpk
    exact h (List.mem_map.mpr ⟨p, hp, hpk⟩)

lemma lookup_of_mem_nodup {reg : Registry} (hnd : (keys reg).Nodup) {k : Nat} {m : Module}
    (h : (k, m) ∈ reg) : lookup reg k = some m := by
  induction reg with
  | nil => cases h
  | cons p t ih =>
    rcases List.mem_cons.mp h with h | h
    · subst h; unfold lookup; simp
    · have hk : k ∈ keys t := List.mem_map.mpr ⟨(k, m), h, rfl⟩
      have hne : p.1 ≠ k := by
        intro he
        have := (List.nodup_cons.mp hnd).1
        rw [he] at this
        exact this hk
      have hrec := ih (List.nodup_cons.mp hnd).2 h
      unfold lookup at hrec ⊢
      rw [List.find?_cons_of_neg _ (by simp [hne])]
      exact hrec

lemma graphOf_not_mem {reg : Registry} {k : Nat} (h : k ∉ keys reg) : graphOf reg k = [] := by
  unfold graphOf
  rw [lookup_eq_none h]

lemma edge_source_mem {reg : Registry} {a b : Nat} (h : Edge reg a b) : a ∈ keys reg := by
  by_contra hc
  rw [Edge, graphOf_not_mem hc] at h
  cases h

lemma mem_collect {α : Type} (f : Nat × Module → List α) (l : Registry) (x : α) :
    x ∈ collect f l ↔ ∃ p ∈ l, x ∈ f p := by
  induction l with
  | nil => simp [collect]
  | cons p t ih => simp [collect, ih]

lemma mem_insert_sorted {x y : Nat} : ∀ {l : List Nat}, x ∈ insert_sorted y l ↔ x = y ∨ x ∈ l
  | [] => by simp [insert_sorted]
  | z :: zs => by
    unfold insert_sorted
    by_cases h : y ≤ z
    · simp [h]
    · simp only [if_neg h, List.mem_cons, @mem_insert_sorted x y zs]
      tauto

lemma mem_sort_ids {x : Nat} {l : List Nat} : x ∈ sort_ids l ↔ x ∈ l := by
  induction l with
  | nil => simp [sort_ids]
  | cons y ys ih =>
    unfold sort_ids at ih ⊢
    simp only [List.foldr_cons, mem_insert_sorted, List.mem_cons, ih]

lemma unvisited_mono {K v w : List Nat} (h : ∀ x ∈ v, x ∈ w) :
    unvisited K w ≤ unvisited K v := by
  apply Finset.card_le_card
  intro x hx
  rw [Finset.mem_sdiff] at hx ⊢
  refine ⟨hx.1, fun hc => hx.2 ?_⟩
  rw [List.mem_toFinset] at hc ⊢
  exact h x hc

lemma unvisited_lt {K v : List Nat} {node : Nat} (hK : node ∈ K) (hv : node ∉ v) :
    unvisited K (node :: v) < unvisited K v := by
  apply Finset.card_lt_card
  constructor
  · intro x hx
    rw [Finset.mem_sdiff] at hx ⊢
    refine ⟨hx.1, fun hc => hx.2 ?_⟩
    rw [List.mem_toFinset] at hc ⊢
    exact List.mem_cons_of_mem _ hc
  · intro hc
    have hnode : node ∈ K.toFinset \ v.toFinset := by
      rw [Finset.mem_sdiff, List.mem_toFinset, List.mem_toFinset]
      exact ⟨hK, hv⟩
    have := hc hnode
    rw [Finset.mem_sdiff, List.mem_toFinset, List.mem_toFinset] at this
    exact this.2 (List.mem_cons_self _ _)

lemma RC_of_edge {g : Nat → List Nat} {node n : Nat} (hn : n ∈ g node) (h : RC g n) :
    RC g node := by
  obtain ⟨c, hrt, hc⟩ := h
  exact ⟨c, Relation.ReflTransGen.head hn hrt, hc⟩

lemma RC_of_backedge {g : Nat → List Nat} {node n : Nat} (hn : n ∈ g node)
    (h : Relation.ReflTransGen (fun x y => y ∈ g x) n node) : RC g node :=
  ⟨node, Relation.ReflTransGen.refl, Relation.TransGen.head' hn h⟩

lemma not_RC_of_nbrs {g : Nat → List Nat} {node : Nat}
    (hnb : ∀ n ∈ g node, ¬ RC g n) : ¬ RC g node := by
  rintro ⟨c, hrt, hc⟩
  rcases hrt.cases_head with he | ⟨b, hb, hbc⟩
  · subst he
    rcases Relation.TransGen.head'_iff.mp hc with ⟨b, hb, hbc⟩
    exact hnb b hb ⟨b, Relation.ReflTransGen.refl, Relation.TransGen.tail' hbc hb⟩
  · exact hnb b hb ⟨c, hbc, hc⟩

lemma chain_climb {g : Nat → List Nat} :
    ∀ (l : List Nat) (a x : Nat), List.Chain' (fun p c => p ∈ g c) (a :: l) →
      x ∈ a :: l → Relation.ReflTransGen (fun u w => w ∈ g u) x a
  | [], a, x, _, hx => by
    rcases List.mem_singleton.mp hx with rfl
    exact Relation.ReflTransGen.refl
  | b :: l, a, x, hch, hx => by
    rcases List.mem_cons.mp hx with rfl | hx
    · exact Relation.ReflTransGen.refl
    · have hab : a ∈ g b := (List.chain'_cons.mp hch).1
      have htail : List.Chain' (fun p c => p ∈ g c) (b :: l) := (List.chain'_cons.mp hch).2
      exact (chain_climb l b x htail hx).tail hab

lemma sound_loop (g : Nat → List Nat) (f : Nat)
    (hV : ∀ node path v, List.Chain' (fun p c => p ∈ g c) (node :: path) →
      (has_cycle g f node path v).1 = true → RC g node) :
    ∀ ns node path v, List.Chain' (fun p c => p ∈ g c) (node :: path) →
      (∀ n ∈ ns, n ∈ g node) →
      (has_cycle_loop (has_cycle g f) ns node path v).1 = true → RC g node := by
  intro ns
  induction ns with
  | nil => intro node path v _ _ h; simp [has_cycle_loop] at h
  | cons n rest ih =>
    intro node path v hch hns h
    simp only [has_cycle_loop] at h
    by_cases hnv : n ∈ v
    · rw [if_pos hnv] at h
      by_cases hnp : n ∈ node :: path
      · exact RC_of_backedge (hns n (List.mem_cons_self _ _))
          (chain_climb path node n hch hnp)
      · rw [if_neg hnp] at h
        exact ih node path v hch (fun m hm => hns m (List.mem_cons_of_mem _ hm)) h
    · rw [if_neg hnv] at h
      rcases hvc : has_cycle g f n (node :: path) v with ⟨b, v₂⟩
      rw [hvc] at h
      cases b with
      | true =>
        have hn : n ∈ g node := hns n (List.mem_cons_self _ _)
        have hch' : List.Chain' (fun p c => p ∈ g c) (n :: node :: path) :=
          List.chain'_cons.mpr ⟨hn, hch⟩
        exact RC_of_edge hn (hV n (node :: path) v hch' (by rw [hvc]))
      | false =>
        exact ih node path v₂ hch (fun m hm => hns m (List.mem_cons_of_mem _ hm)) h

lemma has_cycle_sound (g : Nat → List Nat) :
    ∀ (f : Nat) (node : Nat) (path v : List Nat),
      List.Chain' (fun p c => p ∈ g c) (node :: path) →
      (has_cycle g f node path v).1 = true → RC g node := by
  intro f
  induction f with
  | zero => intro node path v _ h; simp [has_cycle] at h
  | succ f ih =>
    intro node path v hch h
    simp only [has_cycle] at h
    exact sound_loop g f ih (g node) node path (node :: v) hch (fun m hm => hm) h

lemma inv_loop (g : Nat → List Nat) (K : List Nat) (f : Nat)
    (hP : VisitInv g K f) : LoopInv g K f := by
  intro ns
  induction ns with
  | nil =>
    intro node path v hpv hfuel hinv
    simp only [has_cycle_loop]
    exact ⟨fun x hx => hx, fun _ => ⟨hinv, by simp⟩⟩
  | cons n rest ih =>
    intro node path v hpv hfuel hinv
    simp only [has_cycle_loop]
    by_cases hnv : n ∈ v
    · rw [if_pos hnv]
      by_cases hnp : n ∈ node :: path
      · rw [if_pos hnp]
        exact ⟨fun x hx => hx, fun h => by cases h⟩
      · rw [if_neg hnp]
        obtain ⟨hgrow, hfalse⟩ := ih node path v hpv hfuel hinv
        refine ⟨hgrow, fun hb => ?_⟩
        obtain ⟨hinv', hns⟩ := hfalse hb
        refine ⟨hinv', fun m hm => ?_⟩
        rcases List.mem_cons.mp hm with rfl | hm
        · exact hinv m hnv hnp
        · exact hns m hm
    · rw [if_neg hnv]
      rcases hvc : has_cycle g f n (node :: path) v with ⟨b, v₂⟩
      have hPn := hP n (node :: path) v hnv (fun x hx => hpv x hx) hfuel
        (fun x hx hxp => hinv x hx (fun hc => hxp (List.mem_cons_of_mem _ hc)))
      rw [hvc] at hPn
      obtain ⟨hg₂, hn₂, hf₂⟩ := hPn
      cases b with
      | true =>
        refine ⟨fun x hx => hg₂ x hx, fun h => by cases h⟩
      | false =>
        have hinv₂ : ∀ x ∈ v₂, x ∉ node :: path → ¬ RC g x := hf₂ rfl
        have hfuel₂ : unvisited K v₂ + 1 ≤ f :=
          (Nat.add_le_add_right (unvisited_mono fun x hx => hg₂ x hx) 1).trans hfuel
        obtain ⟨hgrow, hfalse⟩ := ih node path v₂ (fun x hx => hg₂ x (hpv x hx))
          hfuel₂ hinv₂
        refine ⟨fun x hx => hgrow x (hg₂ x hx), fun hb => ?_⟩
        obtain ⟨hinv', hns⟩ := hfalse hb
        refine ⟨hinv', fun m hm => ?_⟩
        rcases List.mem_cons.mp hm with rfl | hm
        · exact hinv₂ m hn₂ (fun hc => hnv (hpv m hc))
        · exact hns m hm

lemma visit_inv (g : Nat → List Nat) (K : List Nat) (hd : ∀ n, n ∉ K → g n = []) :
    ∀ f, VisitInv g K f := by
  intro f
  induction f with
  | zero => intro node path v _ _ hfuel _; omega
  | succ f ih =>
    intro node path v hnv hpv hfuel hinv
    by_cases hK : node ∈ K
    · have hfuel' : unvisited K (node :: v) + 1 ≤ f := by
        have h1 := unvisited_lt hK hnv
        omega
      have hQ := inv_loop g K f ih (g node) node path (node :: v)
        (by
          intro x hx
          rcases List.mem_cons.mp hx with rfl | hx
          · exact List.mem_cons_self _ _
          · exact List.mem_cons_of_mem _ (hpv x hx))
        hfuel'
        (by
          intro x hx hxp
          rcases List.mem_cons.mp hx with rfl | hx
          · exact absurd (List.mem_cons_self _ _) hxp
          · exact hinv x hx hxp)
      simp only [has_cycle]
      obtain ⟨hg, hfalse⟩ := hQ
      refine ⟨fun x hx => hg x (List.mem_cons_of_mem _ hx),
        hg node (List.mem_cons_self _ _), ?_⟩
      intro hb x hx hxp
      obtain ⟨hinv', hns⟩ := hfalse hb
      by_cases hxn : x = node
      · subst hxn; exact not_RC_of_nbrs hns
      · refine hinv' x hx (fun hc => ?_)
        rcases List.mem_cons.mp hc with h | h
        · exact hxn h
        · exact hxp h
    · have hempty := hd node hK
      simp only [has_cycle, hempty, has_cycle_loop]
      refine ⟨fun x hx => List.mem_cons_of_mem _ hx, List.mem_cons_self _ _, ?_⟩
      intro _ x hx hxp
      rcases List.mem_cons.mp hx with rfl | hx
      · exact not_RC_of_nbrs (by rw [hempty]; simp)
      · refine hinv x hx (fun hc => ?_)
        rcases List.mem_cons.mp hc with h | h
        · exact hnv (h ▸ hx)
        · exact hxp h

lemma detect_loop_complete (g : Nat → List Nat) (K : List Nat)
    (hd : ∀ n, n ∉ K → g n = []) (f : Nat) :
    ∀ ks v, (∀ x ∈ v, ¬ RC g x) → unvisited K v + 1 ≤ f →
      detect_cycles_loop g f ks v = [] → ∀ k ∈ ks, ¬ RC g k := by
  intro ks
  induction ks with
  | nil => simp
  | cons k ks ih =>
    intro v hinv hfuel hnil m hm
    simp only [detect_cycles_loop] at hnil
    by_cases hkv : k ∈ v
    · rw [if_pos hkv] at hnil
      rcases List.mem_cons.mp hm with rfl | hm
      · exact hinv m hkv
      · exact ih v hinv hfuel hnil m hm
    · rw [if_neg hkv] at hnil
      rcases hvc : has_cycle g f k [] v with ⟨b, v₂⟩
      rw [hvc] at hnil
      have hP := visit_inv g K hd f k [] v hkv (by simp) hfuel
        (by intro x hx _; exact hinv x hx)
      rw [hvc] at hP
      obtain ⟨hg, hk₂, hfalse⟩ := hP
      cases b with
      | true => simp at hnil
      | false =>
        have hinv₂ : ∀ x ∈ v₂, ¬ RC g x := fun x hx => hfalse rfl x hx (by simp)
        have hfuel₂ : unvisited K v₂ + 1 ≤ f :=
          (Nat.add_le_add_right (unvisited_mono hg) 1).trans hfuel
        rcases List.mem_cons.mp hm with rfl | hm
        · exact hinv₂ m hk₂
        · exact ih v₂ hinv₂ hfuel₂ hnil m hm

lemma detect_loop_sound (g : Nat → List Nat) (f : Nat) :
    ∀ ks v r, r ∈ detect_cycles_loop g f ks v → r ∈ ks ∧ RC g r := by
  intro ks
  induction ks with
  | nil => intro v r h; simp [detect_cycles_loop] at h
  | cons k ks ih =>
    intro v r h
    simp only [detect_cycles_loop] at h
    by_cases hkv : k ∈ v
    · rw [if_pos hkv] at h
      obtain ⟨h1, h2⟩ := ih v r h
      exact ⟨List.mem_cons_of_mem _ h1, h2⟩
    · rw [if_neg hkv] at h
      rcases hvc : has_cycle g f k [] v with ⟨b, v₂⟩
      rw [hvc] at h
      cases b with
      | true =>
        rcases List.mem_cons.mp h with rfl | h
        · exact ⟨List.mem_cons_self _ _,
            has_cycle_sound g f r [] v (by simp) (by rw [hvc])⟩
        · obtain ⟨h1, h2⟩ := ih v₂ r h
          exact ⟨List.mem_cons_of_mem _ h1, h2⟩
      | false =>
        obtain ⟨h1, h2⟩ := ih v₂ r h
        exact ⟨List.mem_cons_of_mem _ h1, h2⟩

lemma RC_iff_reaches {reg : Registry} {a : Nat} : RC (graphOf reg) a ↔ ReachesCycle reg a :=
  Iff.rfl

lemma unvisited_nil_le {K : List Nat} : unvisited K [] + 1 ≤ K.length + 1 := by
  have h1 : K.toFinset.card ≤ K.length := List.toFinset_card_le _
  have h2 : unvisited K [] ≤ K.toFinset.card :=
    Finset.card_le_card fun x hx => (Finset.mem_sdiff.mp hx).1
  omega

lemma detect_cycles_nil_acyclic {reg : Registry} (h : detect_cycles reg = []) :
    Acyclic reg := by
  intro a ha
  have hedge : ∃ b, Edge reg a b := by
    rcases Relation.TransGen.head'_iff.mp ha with ⟨b, hb, _⟩
    exact ⟨b, hb⟩
  obtain ⟨b, hb⟩ := hedge
  have hmem : a ∈ keys reg := edge_source_mem hb
  have hcomplete := detect_loop_complete (graphOf reg) (keys reg)
    (fun n hn => graphOf_not_mem hn) (cycle_fuel reg) (keys reg) []
    (by simp) unvisited_nil_le h a hmem
  exact hcomplete ⟨a, Relation.ReflTransGen.refl, ha⟩

lemma acyclic_detect_cycles_nil {reg : Registry} (h : Acyclic reg) :
    detect_cycles reg = [] := by
  cases hdc : detect_cycles reg with
  | nil => rfl
  | cons r rs =>
    exfalso
    have hr : r ∈ detect_cycles reg := by rw [hdc]; exact List.mem_cons_self _ _
    obtain ⟨_, hrc⟩ := detect_loop_sound (graphOf reg) (cycle_fuel reg) (keys reg) [] r hr
    obtain ⟨c, _, hcc⟩ := hrc
    exact h c hcc

lemma detect_cycles_reaches {reg : Registry} {r : Nat} (h : r ∈ detect_cycles reg) :
    ReachesCycle reg r :=
  RC_iff_reaches.mp (detect_loop_sound (graphOf reg) (cycle_fuel reg) (keys reg) [] r h).2

lemma detect_cycles_sub_keys {reg : Registry} {r : Nat} (h : r ∈ detect_cycles reg) :
    r ∈ keys reg :=
  (detect_loop_sound (graphOf reg) (cycle_fuel reg) (keys reg) [] r h).1

lemma foldl_reach_extends :
    ∀ (l : Registry) (acc : List Nat),
      ∃ t, List.foldl (fun acc p =>
          if p.1 ∉ acc ∧ ∀ q ∈ p.2.prerequisites, q ∈ acc then acc ++ [p.1] else acc) acc l
        = acc ++ t ∧ ∀ x ∈ t, x ∈ keys l ∧ x ∉ acc := by
  intro l
  induction l with
  | nil => intro acc; exact ⟨[], by simp⟩
  | cons p l ih =>
    intro acc
    by_cases hc : p.1 ∉ acc ∧ ∀ q ∈ p.2.prerequisites, q ∈ acc
    · obtain ⟨t, h1, h2⟩ := ih (acc ++ [p.1])
      refine ⟨p.1 :: t, ?_, ?_⟩
      · simp only [List.foldl_cons, if_pos hc] at h1 ⊢
        rw [h1, List.append_assoc]
        rfl
      · intro x hx
        rcases List.mem_cons.mp hx with rfl | hx
        · exact ⟨List.mem_cons_self _ _, hc.1⟩
        · obtain ⟨hk, hna⟩ := h2 x hx
          exact ⟨List.mem_cons_of_mem _ hk,
            fun hxa => hna (List.mem_append_left _ hxa)⟩
    · obtain ⟨t, h1, h2⟩ := ih acc
      refine ⟨t, ?_, ?_⟩
      · simp only [List.foldl_cons, if_neg hc] at h1 ⊢
        exact h1
      · intro x hx
        obtain ⟨hk, hna⟩ := h2 x hx
        exact ⟨List.mem_cons_of_mem _ hk, hna⟩

lemma expand_once_extends (reg : Registry) (r : List Nat) :
    ∃ t, expand_once reg r = r ++ t ∧ ∀ x ∈ t, x ∈ keys reg ∧ x ∉ r :=
  foldl_reach_extends reg r

lemma mem_expand_once_mono {reg : Registry} {r : List Nat} {x : Nat} (h : x ∈ r) :
    x ∈ expand_once reg r := by
  obtain ⟨t, ht, _⟩ := expand_once_extends reg r
  rw [ht]
  exact List.mem_append_left _ h

lemma foldl_reach_entry :
    ∀ (l : Registry) (acc : List Nat) (mid : Nat) (m : Module),
      (mid, m) ∈ l → (∀ q ∈ m.prerequisites, q ∈ acc) →
      mid ∈ List.foldl (fun acc p =>
        if p.1 ∉ acc ∧ ∀ q ∈ p.2.prerequisites, q ∈ acc then acc ++ [p.1] else acc) acc l := by
  intro l
  induction l with
  | nil => intro acc mid m h; cases h
  | cons p l ih =>
    intro acc mid m hm hq
    have hmono : ∀ (a : List Nat) (x : Nat), x ∈ a →
        x ∈ List.foldl (fun acc p =>
          if p.1 ∉ acc ∧ ∀ q ∈ p.2.prerequisites, q ∈ acc then acc ++ [p.1] else acc) a l := by
      intro a x hx
      obtain ⟨t, ht, _⟩ := foldl_reach_extends l a
      rw [ht]
      exact List.mem_append_left _ hx
    rcases List.mem_cons.mp hm with heq | hm
    · by_cases hmid : mid ∈ acc
      · by_cases hc : p.1 ∉ acc ∧ ∀ q ∈ p.2.prerequisites, q ∈ acc
        · simp only [List.foldl_cons, if_pos hc]
          exact hmono _ mid (List.mem_append_left _ hmid)
        · simp only [List.foldl_cons, if_neg hc]
          exact hmono _ mid hmid
      · have hc : p.1 ∉ acc ∧ ∀ q ∈ p.2.prerequisites, q ∈ acc := by
          rw [← heq]
          exact ⟨hmid, hq⟩
        simp only [List.foldl_cons, if_pos hc]
        refine hmono _ mid (List.mem_append_right _ ?_)
        rw [← heq]
        exact List.mem_singleton.mpr rfl
    · by_cases hc : p.1 ∉ acc ∧ ∀ q ∈ p.2.prerequisites, q ∈ acc
      · simp only [List.foldl_cons, if_pos hc]
        exact ih _ mid m hm fun q hqm => List.mem_append_left _ (hq q hqm)
      · simp only [List.foldl_cons, if_neg hc]
        exact ih _ mid m hm hq

lemma mem_expand_once_entry {reg : Registry} {r : List Nat} {mid : Nat} {m : Module}
    (hm : (mid, m) ∈ reg) (hq : ∀ q ∈ m.prerequisites, q ∈ r) :
    mid ∈ expand_once reg r :=
  foldl_reach_entry reg r mid m hm hq

lemma foldl_reach_sound (reg : Registry) :
    ∀ (l : Registry) (acc : List Nat), (∀ p ∈ l, p ∈ reg) →
      (∀ x ∈ acc, Completable reg x) →
      ∀ x ∈ List.foldl (fun acc p =>
        if p.1 ∉ acc ∧ ∀ q ∈ p.2.prerequisites, q ∈ acc then acc ++ [p.1] else acc) acc l,
        Completable reg x := by
  intro l
  induction l with
  | nil => intro acc _ hacc x hx; exact hacc x hx
  | cons p l ih =>
    intro acc hl hacc x hx
    by_cases hc : p.1 ∉ acc ∧ ∀ q ∈ p.2.prerequisites, q ∈ acc
    · simp only [List.foldl_cons, if_pos hc] at hx
      refine ih _ (fun q hq => hl q (List.mem_cons_of_mem _ hq)) ?_ x hx
      intro y hy
      rcases List.mem_append.mp hy with hy | hy
      · exact hacc y hy
      · rcases List.mem_singleton.mp hy with rfl
        refine Completable.step p.1 p.2 ?_ fun q hq => hacc q (hc.2 q hq)
        have := hl p (List.mem_cons_self _ _)
        rwa [Prod.mk.eta]
    · simp only [List.foldl_cons, if_neg hc] at hx
      exact ih _ (fun q hq => hl q (List.mem_cons_of_mem _ hq)) hacc x hx

lemma expand_once_sound {reg : Registry} {r : List Nat}
    (h : ∀ x ∈ r, Completable reg x) : ∀ x ∈ expand_once reg r, Completable reg x :=
  foldl_reach_sound reg reg r (fun _ hp => hp) h

lemma expand_iter_grows (reg : Registry) :
    ∀ (f : Nat) (r : List Nat) (x : Nat), x ∈ r → x ∈ expand_iter reg f r := by
  intro f
  induction f with
  | zero => intro r x hx; exact hx
  | succ f ih =>
    intro r x hx
    simp only [expand_iter]
    by_cases h : expand_once reg r = r
    · rw [if_pos h]; exact hx
    · rw [if_neg h]; exact ih _ x (mem_expand_once_mono hx)

lemma expand_iter_sound (reg : Registry) :
    ∀ (f : Nat) (r : List Nat), (∀ x ∈ r, Completable reg x) →
      ∀ x ∈ expand_iter reg f r, Completable reg x := by
  intro f
  induction f with
  | zero => intro r h x hx; exact h x hx
  | succ f ih =>
    intro r h x hx
    simp only [expand_iter] at hx
    by_cases he : expand_once reg r = r
    · rw [if_pos he] at hx; exact h x hx
    · rw [if_neg he] at hx
      exact ih _ (expand_once_sound h) x hx

lemma expand_once_unvisited_lt {reg : Registry} {r : List Nat}
    (h : expand_once reg r ≠ r) :
    unvisited (keys reg) (expand_once reg r) < unvisited (keys reg) r := by
  obtain ⟨t, ht, hspec⟩ := expand_once_extends reg r
  have htne : t ≠ [] := by
    intro hc
    rw [hc, List.append_nil] at ht
    exact h ht
  obtain ⟨x, hx⟩ := List.exists_mem_of_ne_nil t htne
  obtain ⟨hxk, hxr⟩ := hspec x hx
  rw [ht]
  apply Finset.card_lt_card
  rw [Finset.ssubset_iff_subset_ne]
  constructor
  · intro y hy
    rw [Finset.mem_sdiff, List.mem_toFinset, List.mem_toFinset] at hy ⊢
    exact ⟨hy.1, fun hc => hy.2 (List.mem_append_left _ hc)⟩
  · intro hc
    have hxin : x ∈ (keys reg).toFinset \ r.toFinset := by
      rw [Finset.mem_sdiff, List.mem_toFinset, List.mem_toFinset]
      exact ⟨hxk, hxr⟩
    rw [← hc, Finset.mem_sdiff, List.mem_toFinset, List.mem_toFinset] at hxin
    exact hxin.2 (List.mem_append_right _ hx)

lemma expand_iter_fixpoint (reg : Registry) :
    ∀ (f : Nat) (r : List Nat), unvisited (keys reg) r < f →
      expand_once reg (expand_iter reg f r) = expand_iter reg f r := by
  intro f
  induction f with
  | zero => intro r h; omega
  | succ f ih =>
    intro r h
    simp only [expand_iter]
    by_cases he : expand_once reg r = r
    · rw [if_pos he, he]
    · rw [if_neg he]
      refine ih _ ?_
      have := expand_once_unvisited_lt he
      omega

lemma reachable_fixpoint (reg : Registry) :
    expand_once reg (reachable_set reg) = reachable_set reg := by
  apply expand_iter_fixpoint
  have h2 : unvisited (keys reg) (foundation reg) ≤ (keys reg).toFinset.card :=
    Finset.card_le_card fun x hx => (Finset.mem_sdiff.mp hx).1
  have h3 : (keys reg).toFinset.card ≤ (keys reg).length := List.toFinset_card_le _
  have h4 : (keys reg).length = reg.length := by simp [keys]
  omega

lemma foundation_completable {reg : Registry} : ∀ x ∈ foundation reg, Completable reg x := by
  intro x hx
  unfold foundation at hx
  obtain ⟨p, hp, hpx⟩ := List.mem_map.mp hx
  have hmem := List.mem_filter.mp hp
  have hnil : p.2.prerequisites = [] := by simpa using hmem.2
  subst hpx
  refine Completable.step p.1 p.2 ?_ ?_
  · rw [Prod.mk.eta]; exact hmem.1
  · rw [hnil]; intro q hq; cases hq

lemma mem_reachable_iff {reg : Registry} {x : Nat} :
    x ∈ reachable_set reg ↔ Completable reg x := by
  constructor
  · exact fun h => expand_iter_sound reg _ _ foundation_completable x h
  · intro h
    induction h with
    | step mid m hm hpre ih =>
      have hmem : mid ∈ expand_once reg (reachable_set reg) := mem_expand_once_entry hm ih
      rwa [reachable_fixpoint] at hmem

lemma detect_orphans_mem {reg : Registry} (hf : foundation reg ≠ []) {mid : Nat} :
    mid ∈ (detect_orphans reg).orphaned ↔ mid ∈ keys reg ∧ ¬ Completable reg mid := by
  unfold detect_orphans
  rw [if_neg hf]
  simp only [mem_sort_ids, List.mem_filter, decide_eq_true_eq]
  rw [mem_reachable_iff]

lemma orphans_sub_keys {reg : Registry} : ∀ o ∈ (detect_orphans reg).orphaned, o ∈ keys reg := by
  intro o ho
  by_cases hf : foundation reg = []
  · unfold detect_orphans at ho
    rw [if_pos hf] at ho
    cases ho
  · exact ((detect_orphans_mem hf).mp ho).1

lemma lookup_map_upd (u : Module → Module) :
    ∀ (l : Registry) (n : Nat),
      lookup (l.map fun p => (p.1, u p.2)) n = (lookup l n).map u := by
  intro l
  induction l with
  | nil => intro n; rfl
  | cons p t ih =>
    intro n
    unfold lookup
    simp only [List.map_cons]
    by_cases h : p.1 = n
    · rw [List.find?_cons_of_pos _ (by simp [h]), List.find?_cons_of_pos _ (by simp [h])]
      rfl
    · rw [List.find?_cons_of_neg _ (by simp [h]), List.find?_cons_of_neg _ (by simp [h])]
      have hrec := ih n
      unfold lookup at hrec
      exact hrec

lemma lookup_prune (reg : Registry) (n : Nat) :
    lookup (prune reg) n = (lookup reg n).map fun m =>
      { m with prerequisites := m.prerequisites.filter fun q => decide (q ∈ keys reg) } :=
  lookup_map_upd
    (fun m => { m with prerequisites := m.prerequisites.filter fun q => decide (q ∈ keys reg) })
    reg n

lemma keys_prune (reg : Registry) : keys (prune reg) = keys reg := by
  unfold keys prune
  rw [List.map_map]
  rfl

lemma graphOf_prune (reg : Registry) (n : Nat) :
    graphOf (prune reg) n = (graphOf reg n).filter fun q => decide (q ∈ keys reg) := by
  unfold graphOf
  rw [lookup_prune]
  cases lookup reg n with
  | none => rfl
  | some m => rfl

lemma has_cycle_dangling (g : Nat → List Nat) (K : List Nat)
    (hd : ∀ n, n ∉ K → g n = []) (n : Nat) (hn : n ∉ K) :
    ∀ (f : Nat) (p v : List Nat),
      (has_cycle g f n p v).1 = false ∧
      ((has_cycle g f n p v).2.filter fun q => decide (q ∈ K)) =
        v.filter fun q => decide (q ∈ K) := by
  intro f p v
  cases f with
  | zero => exact ⟨rfl, rfl⟩
  | succ f =>
    simp only [has_cycle, hd n hn, has_cycle_loop]
    refine ⟨trivial, ?_⟩
    rw [List.filter_cons]
    simp [hn]

lemma sim_loop (g : Nat → List Nat) (K : List Nat) (hd : ∀ n, n ∉ K → g n = []) (f : Nat)
    (hV : ∀ node path v, node ∈ K → (∀ x ∈ path, x ∈ K) →
      has_cycle (fun n => (g n).filter fun q => decide (q ∈ K)) f node path
          (v.filter fun q => decide (q ∈ K)) =
        ((has_cycle g f node path v).1,
         (has_cycle g f node path v).2.filter fun q => decide (q ∈ K))) :
    ∀ ns node path v, node ∈ K → (∀ x ∈ path, x ∈ K) →
      has_cycle_loop (has_cycle (fun n => (g n).filter fun q => decide (q ∈ K)) f)
          (ns.filter fun q => decide (q ∈ K)) node path (v.filter fun q => decide (q ∈ K)) =
        ((has_cycle_loop (has_cycle g f) ns node path v).1,
         (has_cycle_loop (has_cycle g f) ns node path v).2.filter fun q => decide (q ∈ K)) := by
  intro ns
  induction ns with
  | nil =>
    intro node path v _ _
    simp [has_cycle_loop]
  | cons n rest ih =>
    intro node path v hnK hpK
    by_cases hK : n ∈ K
    · rw [show (n :: rest).filter (fun q => decide (q ∈ K)) =
        n :: rest.filter (fun q => decide (q ∈ K)) by rw [List.filter_cons]; simp [hK]]
      simp only [has_cycle_loop]
      by_cases hnv : n ∈ v
      · have hnv2 : n ∈ v.filter fun q => decide (q ∈ K) :=
          List.mem_filter.mpr ⟨hnv, by simp [hK]⟩
        rw [if_pos hnv, if_pos hnv2]
        by_cases hnp : n ∈ node :: path
        · rw [if_pos hnp, if_pos hnp]
        · rw [if_neg hnp, if_neg hnp]
          exact ih node path v hnK hpK
      · have hnv2 : n ∉ v.filter fun q => decide (q ∈ K) :=
          fun hc => hnv (List.mem_filter.mp hc).1
        rw [if_neg hnv, if_neg hnv2]
        have hV' := hV n (node :: path) v hK (by
          intro x hx
          rcases List.mem_cons.mp hx with rfl | hx
          · exact hnK
          · exact hpK x hx)
        rcases hvc : has_cycle g f n (node :: path) v with ⟨b, v₂⟩
        rw [hvc] at hV'
        rw [hV']
        cases b with
        | true => rfl
        | false => exact ih node path v₂ hnK hpK
    · rw [show (n :: rest).filter (fun q => decide (q ∈ K)) =
        rest.filter (fun q => decide (q ∈ K)) by rw [List.filter_cons]; simp [hK]]
      simp only [has_cycle_loop]
      by_cases hnv : n ∈ v
      · rw [if_pos hnv]
        have hnp : n ∉ node :: path := by
          intro hc
          rcases List.mem_cons.mp hc with rfl | hc
          · exact hK hnK
          · exact hK (hpK n hc)
        rw [if_neg hnp]
        exact ih node path v hnK hpK
      · rw [if_neg hnv]
        rcases hvc : has_cycle g f n (node :: path) v with ⟨b, v₂⟩
        obtain ⟨hb, hv₂⟩ := has_cycle_dangling g K hd n hK f (node :: path) v
        rw [hvc] at hb hv₂
        simp only at hb hv₂
        subst hb
        rw [← hv₂]
        exact ih node path v₂ hnK hpK

lemma has_cycle_sim (g : Nat → List Nat) (K : List Nat) (hd : ∀ n, n ∉ K → g n = []) :
    ∀ (f : Nat) (node : Nat) (path v : List Nat), node ∈ K → (∀ x ∈ path, x ∈ K) →
      has_cycle (fun n => (g n).filter fun q => decide (q ∈ K)) f node path
          (v.filter fun q => decide (q ∈ K)) =
        ((has_cycle g f node path v).1,
         (has_cycle g f node path v).2.filter fun q => decide (q ∈ K)) := by
  intro f
  induction f with
  | zero => intro node path v _ _; rfl
  | succ f ih =>
    intro node path v hnK hpK
    simp only [has_cycle]
    have hcons : (node :: v).filter (fun q => decide (q ∈ K)) =
        node :: v.filter fun q => decide (q ∈ K) := by
      rw [List.filter_cons]; simp [hnK]
    rw [← hcons]
    exact sim_loop g K hd f ih (g node) node path (node :: v) hnK hpK

lemma detect_loop_sim (g : Nat → List Nat) (K : List Nat)
    (hd : ∀ n, n ∉ K → g n = []) (f : Nat) :
    ∀ ks v, (∀ k ∈ ks, k ∈ K) →
      detect_cycles_loop (fun n => (g n).filter fun q => decide (q ∈ K)) f ks
          (v.filter fun q => decide (q ∈ K)) =
        detect_cycles_loop g f ks v := by
  intro ks
  induction ks with
  | nil => intro v _; rfl
  | cons k ks ih =>
    intro v hks
    simp only [detect_cycles_loop]
    have hkK := hks k (List.mem_cons_self _ _)
    by_cases hkv : k ∈ v
    · rw [if_pos hkv, if_pos (List.mem_filter.mpr ⟨hkv, by simp [hkK]⟩)]
      exact ih v fun m hm => hks m (List.mem_cons_of_mem _ hm)
    · rw [if_neg hkv, if_neg (fun hc => hkv (List.mem_filter.mp hc).1)]
      have hsim := has_cycle_sim g K hd f k [] v hkK (by simp)
      rcases hvc : has_cycle g f k [] v with ⟨b, v₂⟩
      rw [hvc] at hsim
      dsimp only at hsim
      rw [hsim]
      cases b with
      | true =>
        dsimp only
        rw [ih v₂ (fun m hm => hks m (List.mem_cons_of_mem _ hm))]
      | false =>
        dsimp only
        exact ih v₂ fun m hm => hks m (List.mem_cons_of_mem _ hm)

lemma detect_cycles_prune (reg : Registry) : detect_cycles (prune reg) = detect_cycles reg := by
  unfold detect_cycles
  have hfuel : cycle_fuel (prune reg) = cycle_fuel reg := by
    unfold cycle_fuel
    rw [keys_prune]
  rw [hfuel, keys_prune]
  have hg : graphOf (prune reg) =
      fun n => (graphOf reg n).filter fun q => decide (q ∈ keys reg) :=
    funext fun n => graphOf_prune reg n
  rw [hg]
  rw [show ([] : List Nat) = ([] : List Nat).filter (fun q => decide (q ∈ keys reg)) from rfl]
  exact detect_loop_sim (graphOf reg) (keys reg) (fun n hn => graphOf_not_mem hn)
    (cycle_fuel reg) (keys reg) [] fun k hk => hk

lemma mem_progression_iff {reg : Registry} (hnd : (keys reg).Nodup)
    {mid q : Nat} {M P : Module}
    (hM : lookup reg mid = some M) (hq : q ∈ M.prerequisites)
    (hP : lookup reg q = some P) :
    (mid, q) ∈ validate_progression_rules reg ↔
      ∃ cb pb cs ps, bloom_index M.bloom_level = some cb ∧
        bloom_index P.bloom_level = some pb ∧
        scaffolding_value M.scaffolding_level = some cs ∧
        scaffolding_value P.scaffolding_level = some ps ∧
        pb < cb ∧ cs < ps := by
  unfold validate_progression_rules
  rw [mem_collect]
  constructor
  · rintro ⟨p, hp, hin⟩
    obtain ⟨a, ha, hfa⟩ := List.mem_filterMap.mp hin
    split at hfa
    · cases hfa
    · rename_i pm hl
      split at hfa
      · rename_i cb pb cs ps h1 h2 h3 h4
        split at hfa
        · rename_i hcond
          have hinj := Option.some.inj hfa
          have hpm : p.1 = mid := congrArg Prod.fst hinj
          have haq : a = q := congrArg Prod.snd hinj
          have hpreg : (mid, p.2) ∈ reg := by
            rw [← hpm, Prod.mk.eta]
            exact hp
          have hMp : p.2 = M := by
            have hlk := lookup_of_mem_nodup hnd hpreg
            rw [hM] at hlk
            exact (Option.some.inj hlk).symm
          have hPp : pm = P := by
            rw [haq, hP] at hl
            exact (Option.some.inj hl).symm
          rw [hMp] at h1 h3
          rw [hPp] at h2 h4
          exact ⟨cb, pb, cs, ps, h1, h2, h3, h4, hcond.1, hcond.2⟩
        · cases hfa
      · cases hfa
  · rintro ⟨cb, pb, cs, ps, h1, h2, h3, h4, h5, h6⟩
    refine ⟨(mid, M), lookup_mem hM, ?_⟩
    apply List.mem_filterMap.mpr
    refine ⟨q, hq, ?_⟩
    simp only [hP, h1, h2, h3, h4]
    rw [if_pos ⟨h5, h6⟩]

lemma no_edge_to (reg : Registry) (t : Nat) (h : ∀ p ∈ reg, t ∉ p.2.prerequisites) :
    ∀ b, ¬ Edge reg b t := by
  intro b hb
  rw [Edge] at hb
  unfold graphOf at hb
  cases hl : lookup reg b with
  | none => rw [hl] at hb; cases hb
  | some m => rw [hl] at hb; exact h (b, m) (lookup_mem hl) hb

lemma orphan_findings_nil_iff (reg : Registry) :
    orphan_findings reg = [] ↔
      (detect_orphans reg).no_foundation = false ∧ (detect_orphans reg).orphaned = [] := by
  unfold orphan_findings
  rcases hdo : detect_orphans reg with ⟨nf, orph⟩
  cases nf
  · by_cases ho : orph = [] <;> simp [ho]
  · simp

/-- C1 (corrected).  The `CircularDependency` finding list is empty exactly
when the prerequisite graph over the registry is acyclic, and every reported
module lies on a path leading to a cycle.  (The original claim that a
reported module lies *on* a cycle fails, see `claim1_counterexample`: the
outer loop reports the root of the traversal that found the back edge, which
may only reach the cycle.) -/
theorem claim1_cycle_detection (reg : Registry) :
    (detect_cycles reg = [] ↔ Acyclic reg) ∧
      ∀ r, r ∈ detect_cycles reg → ReachesCycle reg r :=
  ⟨⟨fun h => detect_cycles_nil_acyclic h, fun h => acyclic_detect_cycles_nil h⟩,
    fun _ hr => detect_cycles_reaches hr⟩

/-- C1 counterexample: in the registry `0 → 1 → 2 → 1` there is a cycle
(through 1), the only reported module is 0, and 0 lies on no cycle. -/
theorem claim1_counterexample :
    Relation.TransGen (Edge regChain) 1 1 ∧ detect_cycles regChain = [0] ∧
      ¬ Relation.TransGen (Edge regChain) 0 0 := by
  refine ⟨?_, by decide, ?_⟩
  · exact Relation.TransGen.head (show Edge regChain 1 2 by decide)
      (Relation.TransGen.single (show Edge regChain 2 1 by decide))
  · intro h
    rcases Relation.TransGen.tail'_iff.mp h with ⟨b, _, hb⟩
    exact no_edge_to regChain 0 (by decide) b hb

/-- Witness for C1 at the registry `0 → 1 → 2 → 1`. -/
theorem claim1_witness : ReachesCycle regChain 0 :=
  (claim1_cycle_detection regChain).2 0 (by decide)

/-- C2 (corrected).  When the foundation set is non-empty, a registry module
receives no `OrphanedModule` finding exactly when it is in the
prerequisite-satisfaction closure (`Completable`): the least set containing
the foundation modules and closed under "all prerequisites reachable".  The
original claim used plain hop-reachability from a foundation module, which
fails, see `claim2_counterexample`. -/
theorem claim2_orphan_characterization (reg : Registry) (hf : foundation reg ≠ [])
    (mid : Nat) (hmem : mid ∈ keys reg) :
    mid ∉ (detect_orphans reg).orphaned ↔ Completable reg mid := by
  rw [detect_orphans_mem hf]
  constructor
  · intro h
    by_contra hc
    exact h ⟨hmem, hc⟩
  · intro h hc
    exact hc.2 h

/-- C2 counterexample: in `regHop`, module 1 is one prerequisite hop from
foundation module 0, yet it is reported orphaned (its other prerequisite, the
self-looping module 2, is never reachable). -/
theorem claim2_counterexample :
    SpecHopReachable regHop 1 ∧ 1 ∈ (detect_orphans regHop).orphaned := by
  constructor
  · exact ⟨0, by decide, Relation.ReflTransGen.single (by decide)⟩
  · decide

/-- Witness for C2: in `regDang`, module 0 is unreported and completable. -/
theorem claim2_witness : Completable regDang 0 :=
  (claim2_orphan_characterization regDang (by decide) 0 (by decide)).mp (by decide)

/-- C3 (confirmed).  For an edge from module `M` to a prerequisite `P`
present in the registry, a `ProgressionViolation (mid, q)` finding is
produced exactly when both modules' Bloom and scaffolding levels are in the
fixed enumerations, `M`'s Bloom index strictly exceeds `P`'s, and `M`'s
scaffolding value is strictly below `P`'s.  In particular edges with equal
complexity, non-decreasing support, or malformed levels produce nothing. -/
theorem claim3_progression_iff (reg : Registry) (hnd : (keys reg).Nodup)
    (mid q : Nat) (M P : Module)
    (hM : lookup reg mid = some M) (hq : q ∈ M.prerequisites)
    (hP : lookup reg q = some P) :
    (mid, q) ∈ validate_progression_rules reg ↔
      ∃ cb pb cs ps, bloom_index M.bloom_level = some cb ∧
        bloom_index P.bloom_level = some pb ∧
        scaffolding_value M.scaffolding_level = some cs ∧
        scaffolding_value P.scaffolding_level = some ps ∧
        pb < cb ∧ cs < ps :=
  mem_progression_iff hnd hM hq hP

/-- Witness for C3 at spec scenario 5 (`Remember`/`HIGH` → `Create`/`LOW`). -/
theorem claim3_witness : (1, 0) ∈ validate_progression_rules regProg :=
  (claim3_progression_iff regProg (by decide) 1 0 (mkModLvl "Create" "LOW" [0])
      (mkModLvl "Remember" "HIGH" []) (by decide) (by decide) (by decide)).mpr
    ⟨5, 0, 1, 3, by decide, by decide, by decide, by decide, by decide, by decide⟩

/-- C4 (corrected).  Cycle detection computes exactly the same findings on
the registry with every dangling prerequisite removed: a dangling id is a
dead end for the DFS, never reported and never part of a back edge.  The
orphan analysis is *not* invariant under this pruning (the original claim
fails there, see `claim4_counterexample`): a dangling prerequisite behaves as
a permanently unsatisfiable requirement, whereas after pruning the module may
become a foundation module. -/
theorem claim4_prune_invariance (reg : Registry) :
    detect_cycles (prune reg) = detect_cycles reg :=
  detect_cycles_prune reg

/-- Witness for C4 on the registry with a dangling prerequisite. -/
theorem claim4_witness : detect_cycles (prune regDang) = detect_cycles regDang :=
  claim4_prune_invariance regDang

/-- C4 counterexample: in `regDang` module 2 (whose only prerequisite, 99, is
dangling) is reported orphaned, but after removing the dangling reference it
is a foundation module and nothing is orphaned. -/
theorem claim4_counterexample :
    (detect_orphans (prune regDang)).orphaned ≠ (detect_orphans regDang).orphaned := by
  decide

/-- C5 (corrected).  Whenever some module lies on a cycle, at least one
`CircularDependency` finding is produced — but only the root of each
cycle-detecting traversal is reported, not every module participating in a
cycle (see `claim5_counterexample`). -/
theorem claim5_cycle_reported (reg : Registry) (a : Nat)
    (h : Relation.TransGen (Edge reg) a a) : detect_cycles reg ≠ [] := by
  intro hnil
  exact detect_cycles_nil_acyclic hnil a h

/-- C5 counterexample: in the two-cycle `1 ↔ 2`, module 2 participates in a
circular dependency chain but only module 1 is reported. -/
theorem claim5_counterexample :
    Relation.TransGen (Edge regPair) 2 2 ∧ detect_cycles regPair = [1] := by
  refine ⟨?_, by decide⟩
  exact Relation.TransGen.head (show Edge regPair 2 1 by decide)
    (Relation.TransGen.single (show Edge regPair 1 2 by decide))

/-- Witness for C5 on the two-cycle `1 ↔ 2`. -/
theorem claim5_witness : detect_cycles regPair ≠ [] :=
  claim5_cycle_reported regPair 1
    (Relation.TransGen.head (show Edge regPair 1 2 by decide)
      (Relation.TransGen.single (show Edge regPair 2 1 by decide)))

/-- C6 (code bug).  `discover_modules` is documented to raise `ValueError` on
a duplicate module id (docstring lines 43–44, `raise` at line 85), but that
`raise` sits inside the `try` block whose blanket `except Exception` at line
89 catches it: the duplicate record is skipped with a warning and a mapping
is still produced.  Evaluated at the failing input: two records with id 0. -/
theorem claim6_duplicate_swallowed :
    discover_modules [(0, modA), (0, modB)] = [(0, modA)] ∧
      (0, modB) ∉ discover_modules [(0, modA), (0, modB)] := by
  decide

/-- C7 (confirmed).  When no module has an empty prerequisite list, orphan
analysis reports exactly the single `NoFoundationModules` finding and no
`OrphanedModule` finding. -/
theorem claim7_no_foundation (reg : Registry) (h : foundation reg = []) :
    detect_orphans reg = ⟨true, []⟩ ∧ orphan_findings reg = [Finding.no_foundation] := by
  have h1 : detect_orphans reg = ⟨true, []⟩ := by
    unfold detect_orphans
    rw [if_pos h]
  refine ⟨h1, ?_⟩
  unfold orphan_findings
  rw [h1]
  rfl

/-- Witness for C7 on the foundationless two-cycle `1 ↔ 2`. -/
theorem claim7_witness :
    detect_orphans regPair = ⟨true, []⟩ ∧
      orphan_findings regPair = [Finding.no_foundation] :=
  claim7_no_foundation regPair (by decide)

/-- C8 (confirmed).  On a non-empty registry `main` signals success exactly
when all four checks come back empty, and the final report holds exactly the
findings of the four checks, none dropped. -/
theorem claim8_main (reg : Registry) (h : reg ≠ []) :
    (main_result reg = 0 ↔
      validate_prerequisite_references reg = [] ∧ detect_cycles reg = [] ∧
      (detect_orphans reg).no_foundation = false ∧ (detect_orphans reg).orphaned = [] ∧
      validate_progression_rules reg = []) ∧
    ∀ fd, fd ∈ all_findings reg ↔
      (fd ∈ (validate_prerequisite_references reg).map (fun p => Finding.dangling p.1 p.2) ∨
       fd ∈ (detect_cycles reg).map Finding.circular ∨
       fd ∈ orphan_findings reg ∨
       fd ∈ (validate_progression_rules reg).map fun p => Finding.progression p.1 p.2) := by
  constructor
  · unfold main_result
    rw [if_neg h]
    constructor
    · intro h0
      have hall : all_findings reg = [] := by
        by_contra hc
        rw [if_neg hc] at h0
        exact one_ne_zero h0
      simp only [all_findings, List.append_eq_nil, List.map_eq_nil_iff] at hall
      obtain ⟨⟨⟨h1, h2⟩, h3⟩, h4⟩ := hall
      obtain ⟨h3a, h3b⟩ := (orphan_findings_nil_iff reg).mp h3
      exact ⟨h1, h2, h3a, h3b, h4⟩
    · rintro ⟨h1, h2, h3, h4, h5⟩
      have hall : all_findings reg = [] := by
        simp only [all_findings, List.append_eq_nil, List.map_eq_nil_iff]
        exact ⟨⟨⟨h1, h2⟩, (orphan_findings_nil_iff reg).mpr ⟨h3, h4⟩⟩, h5⟩
      rw [if_pos hall]
  · intro fd
    simp only [all_findings, List.mem_append]
    tauto

/-- Witness for C8 on a fully valid one-module registry. -/
theorem claim8_witness : main_result regOK = 0 :=
  (claim8_main regOK (by decide)).1.mpr
    ⟨by decide, by decide, by decide, by decide, by decide⟩

/-- C9 (confirmed).  Every module id named in a `CircularDependency` or
`OrphanedModule` finding is a key of the registry; dangling prerequisite ids,
though traversed by the DFS and consulted by the sweep, are never reported. -/
theorem claim9_findings_in_registry (reg : Registry) :
    (∀ r ∈ detect_cycles reg, r ∈ keys reg) ∧
      ∀ o ∈ (detect_orphans reg).orphaned, o ∈ keys reg :=
  ⟨fun _ hr => detect_cycles_sub_keys hr, orphans_sub_keys⟩

/-- Witness for C9 on the two concrete registries with findings. -/
theorem claim9_witness : 1 ∈ keys regPair ∧ 2 ∈ keys regDang :=
  ⟨(claim9_findings_in_registry regPair).1 1 (by decide),
    (claim9_findings_in_registry regDang).2 2 (by decide)⟩

/-- C10 (confirmed).  The fixed-point sweep terminates: a pass that is not
the final (unchanged) pass strictly enlarges the reachable set, and after at
most `reg.length + 1` passes the sweep has reached its fixed point. -/
theorem claim10_sweep_terminates (reg : Registry) (r : List Nat)
    (h : expand_once reg r ≠ r) :
    r.length < (expand_once reg r).length ∧
      expand_once reg (reachable_set reg) = reachable_set reg := by
  constructor
  · obtain ⟨t, ht, _⟩ := expand_once_extends reg r
    have htne : t ≠ [] := by
      intro hc
      rw [hc, List.append_nil] at ht
      exact h ht
    rw [ht, List.length_append]
    have : 0 < t.length := List.length_pos.mpr htne
    omega
  · exact reachable_fixpoint reg

/-- Witness for C10: the first sweep pass on `regDang` from the empty set. -/
theorem claim10_witness :
    ([] : List Nat).length < (expand_once regDang []).length ∧
      expand_once regDang (reachable_set regDang) = reachable_set regDang :=
  claim10_sweep_terminates regDang [] (by decide)

end ValidateGraph
